import Mathlib

/-!
Verification of the deepwork website blocker (pravsels/deepwork).

The development shallowly embeds the Python sources:
  * `blocker.py`   — hosts-file override region management, domain
    expansion, the block/unblock lifecycle and the unlock scheduler;
  * `block_server.py` — the loopback block-page responder.

File contents are modelled as `List Char`, holding the text as
`Path.read_text` returns it (universal-newline decoding already
applied); `str.splitlines` is modelled with its full set of remaining
line-boundary characters.  Python sets of strings are modelled as
`Finset (List Char)` where the set structure matters, and as
duplicate-free sorted lists where the code iterates `sorted(someSet)`.
-/

namespace DeepWork

/-! ### Python string primitives used by `blocker.py` -/

/-- Python `marker in line` substring test (`str.__contains__`). -/
def hasSub (pat : List Char) : List Char → Bool
  | [] => pat.isEmpty
  | c :: t => pat.isPrefixOf (c :: t) || hasSub pat t

/-- The characters `str.splitlines` treats as line boundaries in text
obtained through `Path.read_text`: universal-newline decoding has
already translated `\r` and `\r\n` to `\n` before `splitlines` runs,
so no carriage return occurs in such text, and the remaining
boundaries are the single characters below. -/
def isLineBreak (c : Char) : Bool :=
  decide (c = '\n' ∨ c = '\x0b' ∨ c = '\x0c' ∨ c = '\x1c' ∨
    c = '\x1d' ∨ c = '\x1e' ∨ c = '\x85' ∨ c = '\u2028' ∨ c = '\u2029')

/-- Python `str.splitlines` splits on line boundaries; a trailing
boundary does not produce a final empty line.  `splitNl` is the raw
split on the boundary characters (always non-empty). -/
def splitNl : List Char → List (List Char)
  | [] => [[]]
  | c :: cs =>
    if isLineBreak c then [] :: splitNl cs
    else
      match splitNl cs with
      | l :: ls => (c :: l) :: ls
      | [] => [[c]]

/-- Python `content.splitlines()`. -/
def pySplitlines (s : List Char) : List (List Char) :=
  if (splitNl s).getLast? = some [] then (splitNl s).dropLast else splitNl s

/-- Python `'\n'.join(lines)`. -/
def joinNl : List (List Char) → List Char
  | [] => []
  | [l] => l
  | l :: l' :: ls => l ++ '\n' :: joinNl (l' :: ls)

/-! ### Sorting of a Python set of strings (`sorted(domains)`) -/

/-- Python string `<=`: lexicographic comparison by code point. -/
def charListLe : List Char → List Char → Bool
  | [], _ => true
  | _ :: _, [] => false
  | a :: as, b :: bs => if a = b then charListLe as bs else decide (a < b)

/-- Insert into a `charListLe`-sorted list. -/
def insertLe (x : List Char) : List (List Char) → List (List Char)
  | [] => [x]
  | y :: ys => if charListLe x y then x :: y :: ys else y :: insertLe x ys

/-- Ascending sort by `charListLe` (models Python `sorted`). -/
def sortLe : List (List Char) → List (List Char)
  | [] => []
  | x :: xs => insertLe x (sortLe xs)

/-- Duplicate removal, keeping first occurrences; composing with
`sortLe` models iterating `sorted(s)` over a Python set `s` that is
represented here by any list enumerating it. -/
def dedupAux (seen : List (List Char)) : List (List Char) → List (List Char)
  | [] => []
  | x :: xs => if x ∈ seen then dedupAux seen xs else x :: dedupAux (x :: seen) xs

def pyDedup (l : List (List Char)) : List (List Char) :=
  dedupAux [] l

/-! ### Hosts-file region management (`RockSolidBlocker`, blocker.py) -/

/-- `self.block_marker_start` -/
def blockMarkerStart : List Char :=
  "# >>> DEEPWORK BLOCK START - DO NOT EDIT <<<".data

/-- `self.block_marker_end` -/
def blockMarkerEnd : List Char :=
  "# >>> DEEPWORK BLOCK END <<<".data

/-- `self.localhost` -/
def localhost : List Char := "127.0.0.1".data

/-- `self.localhost_v6` -/
def localhostV6 : List Char := "::1".data

/-- `self.block_marker_start in line` -/
def hasStart (line : List Char) : Bool := hasSub blockMarkerStart line

/-- `self.block_marker_end in line` -/
def hasEnd (line : List Char) : Bool := hasSub blockMarkerEnd line

/-- A line that would be kept verbatim by the marker filter. -/
def cleanLine (line : List Char) : Prop :=
  hasStart line = false ∧ hasEnd line = false

instance (line : List Char) : Decidable (cleanLine line) :=
  inferInstanceAs (Decidable (_ ∧ _))

/-- The filter loop shared by `_add_hosts_entries` and
`_remove_hosts_entries`: drops marker lines and everything between a
start marker and the next end marker (state `inBlock`). -/
def stripBlockLines (inBlock : Bool) : List (List Char) → List (List Char)
  | [] => []
  | line :: rest =>
    if hasStart line then stripBlockLines true rest
    else if hasEnd line then stripBlockLines false rest
    else if inBlock then stripBlockLines inBlock rest
    else line :: stripBlockLines inBlock rest

/-- The block of entry lines appended by `_add_hosts_entries`: for each
domain in `sorted(domains)`, an IPv4 line and an IPv6 line. -/
def entryLines (domains : List (List Char)) : List (List Char) :=
  (sortLe (pyDedup domains)).flatMap
    (fun d => [localhost ++ ' ' :: d, localhostV6 ++ ' ' :: d])

/-- `RockSolidBlocker._add_hosts_entries` (the file rewrite it performs,
`domains` enumerating the Python set argument): strip any existing
marked region, then append a blank separator line, the start marker,
the sorted entries, and the end marker, and write the result joined
with newlines plus a final newline. -/
def addHostsEntries (domains : List (List Char)) (content : List Char) : List Char :=
  joinNl (stripBlockLines false (pySplitlines content) ++
    ([] :: blockMarkerStart :: (entryLines domains ++ [blockMarkerEnd]))) ++ ['\n']

/-- `RockSolidBlocker._remove_hosts_entries` (the file rewrite). -/
def removeHostsEntries (content : List Char) : List Char :=
  joinNl (stripBlockLines false (pySplitlines content)) ++ ['\n']

/-- Well-formedness of a domain list for the hosts region: none of the
generated entry lines contains a line-boundary character or marker
text.  Every real domain name satisfies this (markers are 28+
characters of `#`, `>`, spaces); only inputs that smuggle the literal
marker text or line boundaries inside a "domain" violate it. -/
def entriesOk (domains : List (List Char)) : Prop :=
  ∀ l ∈ entryLines domains,
    (∀ c ∈ l, isLineBreak c = false) ∧ hasStart l = false ∧ hasEnd l = false

instance (domains : List (List Char)) : Decidable (entriesOk domains) :=
  inferInstanceAs (Decidable (∀ _ ∈ _, _))

/-- Content already in the normal form the writer produces: joined
lines followed by a single trailing newline.  Since the joined lines
carry no line-boundary character, such content contains `'\n'` as its
only line boundary and ends with it. -/
def normalizedContent (content : List Char) : Prop :=
  joinNl (pySplitlines content) ++ ['\n'] = content

instance (content : List Char) : Decidable (normalizedContent content) :=
  inferInstanceAs (Decidable (_ = _))

/-! ### Basic facts about the line splitting and joining -/

theorem splitNl_ne_nil (s : List Char) : splitNl s ≠ [] := by
  induction s with
  | nil => simp [splitNl]
  | cons c cs ih =>
    simp only [splitNl]
    split
    · simp
    · cases h : splitNl cs with
      | nil => simp
      | cons l ls => simp [h]

theorem mem_splitNl_no_break (s : List Char) :
    ∀ l ∈ splitNl s, ∀ c ∈ l, isLineBreak c = false := by
  induction s with
  | nil =>
    intro l hl
    simp [splitNl] at hl
    simp [hl]
  | cons c cs ih =>
    intro l hl
    simp only [splitNl] at hl
    by_cases hc : isLineBreak c
    · rw [if_pos hc] at hl
      rcases List.mem_cons.mp hl with h | h
      · simp [h]
      · exact ih l h
    · rw [if_neg hc] at hl
      cases h : splitNl cs with
      | nil => exact absurd h (splitNl_ne_nil cs)
      | cons l0 ls =>
        rw [h] at hl
        rcases List.mem_cons.mp hl with h1 | h1
        · subst h1
          intro a ha
          rcases List.mem_cons.mp ha with h2 | h2
          · rw [h2]
            exact Bool.eq_false_iff.mpr hc
          · exact ih l0 (h ▸ List.mem_cons_self l0 ls) a h2
        · exact ih l (h ▸ List.mem_cons_of_mem l0 h1)

theorem splitNl_append (x cs : List Char)
    (hx : ∀ a ∈ x, isLineBreak a = false) :
    splitNl (x ++ '\n' :: cs) = x :: splitNl cs := by
  induction x with
  | nil =>
    show splitNl ('\n' :: cs) = [] :: splitNl cs
    rw [splitNl, if_pos (by decide : isLineBreak '\n' = true)]
  | cons a x ih =>
    have ha : isLineBreak a = false := hx a (List.mem_cons_self a x)
    have hx' : ∀ a ∈ x, isLineBreak a = false :=
      fun b hb => hx b (List.mem_cons_of_mem a hb)
    show splitNl (a :: (x ++ '\n' :: cs)) = (a :: x) :: splitNl cs
    rw [splitNl, if_neg (by rw [ha]; exact Bool.false_ne_true), ih hx']

theorem joinNl_concat (xs : List (List Char)) (y : List Char) (h : xs ≠ []) :
    joinNl (xs ++ [y]) = joinNl xs ++ '\n' :: y := by
  induction xs with
  | nil => exact absurd rfl h
  | cons a tl ih =>
    cases tl with
    | nil => simp [joinNl]
    | cons b tl' =>
      have := ih (by simp)
      simp only [List.cons_append] at this ⊢
      simp only [joinNl, this, List.append_assoc, List.cons_append]

theorem splitNl_joinNl (ls : List (List Char))
    (h : ∀ l ∈ ls, ∀ c ∈ l, isLineBreak c = false) (hne : ls ≠ []) :
    splitNl (joinNl ls ++ ['\n']) = ls ++ [[]] := by
  induction ls with
  | nil => exact absurd rfl hne
  | cons a tl ih =>
    cases tl with
    | nil =>
      have ha : ∀ c ∈ a, isLineBreak c = false := h a (List.mem_cons_self a [])
      simpa [joinNl] using splitNl_append a [] ha
    | cons b tl' =>
      have ha : ∀ c ∈ a, isLineBreak c = false := h a (List.mem_cons_self _ _)
      have h' : ∀ l ∈ b :: tl', ∀ c ∈ l, isLineBreak c = false :=
        fun l hl => h l (List.mem_cons_of_mem a hl)
      have step : joinNl (a :: b :: tl') ++ ['\n'] =
          a ++ '\n' :: (joinNl (b :: tl') ++ ['\n']) := by
        simp [joinNl, List.append_assoc]
      rw [step, splitNl_append a _ ha, ih h' (by simp)]
      simp

theorem pySplitlines_joinNl (ls : List (List Char))
    (h : ∀ l ∈ ls, ∀ c ∈ l, isLineBreak c = false) (hne : ls ≠ []) :
    pySplitlines (joinNl ls ++ ['\n']) = ls := by
  unfold pySplitlines
  rw [splitNl_joinNl ls h hne, List.getLast?_concat]
  simp

theorem mem_pySplitlines_no_break (s : List Char) :
    ∀ l ∈ pySplitlines s, ∀ c ∈ l, isLineBreak c = false := by
  intro l hl
  unfold pySplitlines at hl
  have : l ∈ splitNl s := by
    by_cases hc : (splitNl s).getLast? = some []
    · rw [if_pos hc] at hl
      exact List.dropLast_subset _ hl
    · rw [if_neg hc] at hl
      exact hl
  exact mem_splitNl_no_break s l this

/-! ### Facts about the marker filter loop -/

theorem stripBlockLines_append_clean (xs ys : List (List Char))
    (h : ∀ l ∈ xs, cleanLine l) :
    stripBlockLines false (xs ++ ys) = xs ++ stripBlockLines false ys := by
  induction xs with
  | nil => simp
  | cons x tl ih =>
    have hx := h x (List.mem_cons_self _ _)
    have htl : ∀ l ∈ tl, cleanLine l := fun l hl => h l (List.mem_cons_of_mem x hl)
    simp only [List.cons_append, stripBlockLines, hx.1, hx.2, Bool.false_eq_true,
      if_false, List.append_eq, ih htl]

theorem stripBlockLines_clean_id (xs : List (List Char))
    (h : ∀ l ∈ xs, cleanLine l) :
    stripBlockLines false xs = xs := by
  have := stripBlockLines_append_clean xs [] h
  simpa [stripBlockLines] using this

theorem stripBlockLines_skip (mid ys : List (List Char))
    (h : ∀ l ∈ mid, hasEnd l = false) :
    stripBlockLines true (mid ++ ys) = stripBlockLines true ys := by
  induction mid with
  | nil => simp
  | cons m tl ih =>
    have hm := h m (List.mem_cons_self _ _)
    have htl : ∀ l ∈ tl, hasEnd l = false := fun l hl => h l (List.mem_cons_of_mem m hl)
    by_cases hs : hasStart m
    · simp only [List.cons_append, stripBlockLines, hs, if_true, List.append_eq, ih htl]
    · simp only [List.cons_append, stripBlockLines, hs, hm, Bool.false_eq_true,
        if_false, if_true, List.append_eq, ih htl]

theorem hasStart_blockMarkerStart : hasStart blockMarkerStart = true := by decide

theorem hasStart_blockMarkerEnd : hasStart blockMarkerEnd = false := by decide

theorem hasEnd_blockMarkerEnd : hasEnd blockMarkerEnd = true := by decide

theorem stripBlockLines_region (mid rest : List (List Char))
    (h : ∀ l ∈ mid, hasEnd l = false) :
    stripBlockLines false (blockMarkerStart :: (mid ++ blockMarkerEnd :: rest)) =
      stripBlockLines false rest := by
  simp only [stripBlockLines, hasStart_blockMarkerStart, if_true]
  rw [stripBlockLines_skip mid _ h]
  simp only [stripBlockLines, hasStart_blockMarkerEnd, hasEnd_blockMarkerEnd,
    Bool.false_eq_true, if_false, if_true]

theorem mem_stripBlockLines (b : Bool) (ls : List (List Char)) :
    ∀ l ∈ stripBlockLines b ls, l ∈ ls := by
  induction ls generalizing b with
  | nil => simp [stripBlockLines]
  | cons x tl ih =>
    intro l hl
    simp only [stripBlockLines] at hl
    by_cases h1 : hasStart x
    · rw [if_pos h1] at hl
      exact List.mem_cons_of_mem x (ih true l hl)
    · rw [if_neg h1] at hl
      by_cases h2 : hasEnd x
      · rw [if_pos h2] at hl
        exact List.mem_cons_of_mem x (ih false l hl)
      · rw [if_neg h2] at hl
        by_cases h3 : b = true
        · rw [if_pos h3] at hl
          exact List.mem_cons_of_mem x (ih b l hl)
        · rw [if_neg h3] at hl
          rcases List.mem_cons.mp hl with h4 | h4
          · exact h4 ▸ List.mem_cons_self x tl
          · exact List.mem_cons_of_mem x (ih b l h4)

theorem stripBlockLines_clean_output (b : Bool) (ls : List (List Char)) :
    ∀ l ∈ stripBlockLines b ls, cleanLine l := by
  induction ls generalizing b with
  | nil => simp [stripBlockLines]
  | cons x tl ih =>
    intro l hl
    simp only [stripBlockLines] at hl
    by_cases h1 : hasStart x
    · rw [if_pos h1] at hl; exact ih true l hl
    · rw [if_neg h1] at hl
      by_cases h2 : hasEnd x
      · rw [if_pos h2] at hl; exact ih false l hl
      · rw [if_neg h2] at hl
        by_cases h3 : b = true
        · rw [if_pos h3] at hl; exact ih b l hl
        · rw [if_neg h3] at hl
          rcases List.mem_cons.mp hl with h4 | h4
          · subst h4
            exact ⟨Bool.eq_false_iff.mpr h1, Bool.eq_false_iff.mpr h2⟩
          · exact ih b l h4

/-! ### The line structure written by `_add_hosts_entries` -/

theorem cleanLine_nil : cleanLine ([] : List Char) := by decide

theorem pySplitlines_addHostsEntries (d : List (List Char)) (c : List Char)
    (hd : entriesOk d) :
    pySplitlines (addHostsEntries d c) =
      stripBlockLines false (pySplitlines c) ++
        ([] :: blockMarkerStart :: (entryLines d ++ [blockMarkerEnd])) := by
  unfold addHostsEntries
  apply pySplitlines_joinNl
  · intro l hl
    rcases List.mem_append.mp hl with h | h
    · exact mem_pySplitlines_no_break c l (mem_stripBlockLines false _ l h)
    · rcases List.mem_cons.mp h with h | h
      · simp [h]
      · rcases List.mem_cons.mp h with h | h
        · subst h; decide
        · rcases List.mem_append.mp h with h | h
          · exact (hd l h).1
          · rcases List.mem_cons.mp h with h | h
            · subst h; decide
            · simp at h
  · simp

theorem stripBlockLines_afterRegion (xs mid : List (List Char))
    (hxs : ∀ l ∈ xs, cleanLine l) (hmid : ∀ l ∈ mid, hasEnd l = false) :
    stripBlockLines false
        (xs ++ ([] :: blockMarkerStart :: (mid ++ [blockMarkerEnd]))) =
      xs ++ [[]] := by
  rw [show xs ++ ([] :: blockMarkerStart :: (mid ++ [blockMarkerEnd])) =
      (xs ++ [[]]) ++ (blockMarkerStart :: (mid ++ blockMarkerEnd :: [])) from by simp]
  rw [stripBlockLines_append_clean _ _ ?_]
  · rw [stripBlockLines_region mid [] hmid]
    simp [stripBlockLines]
  · intro l hl
    rcases List.mem_append.mp hl with h | h
    · exact hxs l h
    · rcases List.mem_cons.mp h with h | h
      · subst h; exact cleanLine_nil
      · simp at h

/-! ### Claim theorems about the override region (C1, C3, C4) -/

/-- C1 (counterexample): `applyRegion` then `removeRegion` is *not*
byte-identical to the original content: the blank separator line that
`_add_hosts_entries` appends before the start marker is outside the
marked region and survives `_remove_hosts_entries`, so the file gains
one blank line per round trip.  Concretely, content `"a\n"` becomes
`"a\n\n"`. -/
theorem roundtrip_not_byte_identical :
    removeHostsEntries (addHostsEntries ["example.com".data] "a\n".data) ≠
      "a\n".data := by decide

/-- C1 (amended): for any normalized original content — newline-
terminated, with the newline character as its only line-boundary
character — whose lines do not contain the marker text, and any domain
list whose entry lines are well formed, `removeRegion` after
`applyRegion` restores the original content *plus one trailing blank
line* (one extra newline byte).  Non-normalized content is further
rewritten: the round trip also replaces every other line-boundary
character (vertical tab, form feed, …) with a newline and appends a
trailing newline where one was missing. -/
theorem roundtrip_restores_plus_blank_line (d : List (List Char)) (c : List Char)
    (hclean : ∀ l ∈ pySplitlines c, cleanLine l)
    (hnorm : normalizedContent c)
    (hd : entriesOk d) :
    removeHostsEntries (addHostsEntries d c) = c ++ ['\n'] := by
  have hP : pySplitlines c ≠ [] := by
    intro h0
    unfold normalizedContent at hnorm
    rw [h0] at hnorm
    simp [joinNl] at hnorm
    rw [← hnorm] at h0
    exact absurd h0 (by decide)
  have hE : ∀ l ∈ entryLines d, hasEnd l = false := fun l hl => (hd l hl).2.2
  unfold removeHostsEntries
  rw [pySplitlines_addHostsEntries d c hd,
    stripBlockLines_afterRegion _ _ (stripBlockLines_clean_output false _) hE,
    stripBlockLines_clean_id _ hclean,
    joinNl_concat _ _ hP]
  unfold normalizedContent at hnorm
  rw [hnorm]

/-- C1 (witness). -/
theorem roundtrip_restores_plus_blank_line_witness :
    (∀ l ∈ pySplitlines "x\n".data, cleanLine l) ∧
      normalizedContent "x\n".data ∧ entriesOk ["example.com".data] ∧
      removeHostsEntries (addHostsEntries ["example.com".data] "x\n".data) =
        "x\n".data ++ ['\n'] :=
  ⟨by decide, by decide, by decide,
    roundtrip_restores_plus_blank_line ["example.com".data] "x\n".data
      (by decide) (by decide) (by decide)⟩

/-- C3: applying the region twice (any starting content, well-formed
domain lists) leaves exactly one marked region, whose body is exactly
the entry lines of the second domain list: the resulting file splits
into marker-free lines, the start marker, the second call's entries,
and the end marker. -/
theorem applyRegion_twice_single_region (d1 d2 : List (List Char)) (c : List Char)
    (h1 : entriesOk d1) (h2 : entriesOk d2) :
    ∃ pre, pySplitlines (addHostsEntries d2 (addHostsEntries d1 c)) =
        pre ++ blockMarkerStart :: (entryLines d2 ++ [blockMarkerEnd]) ∧
      ∀ l ∈ pre, cleanLine l := by
  have hE1 : ∀ l ∈ entryLines d1, hasEnd l = false := fun l hl => (h1 l hl).2.2
  refine ⟨stripBlockLines false (pySplitlines c) ++ [[]] ++ [[]], ?_, ?_⟩
  · rw [pySplitlines_addHostsEntries d2 _ h2, pySplitlines_addHostsEntries d1 c h1,
      stripBlockLines_afterRegion _ _ (stripBlockLines_clean_output false _) hE1]
    simp
  · intro l hl
    rcases List.mem_append.mp hl with h | h
    · rcases List.mem_append.mp h with h | h
      · exact stripBlockLines_clean_output false _ l h
      · rcases List.mem_cons.mp h with h | h
        · subst h; exact cleanLine_nil
        · simp at h
    · rcases List.mem_cons.mp h with h | h
      · subst h; exact cleanLine_nil
      · simp at h

/-- C3 (witness). -/
theorem applyRegion_twice_single_region_witness :
    entriesOk ["b.com".data] ∧ entriesOk ["a.com".data] ∧
      ∃ pre, pySplitlines (addHostsEntries ["a.com".data]
          (addHostsEntries ["b.com".data] "x\n".data)) =
        pre ++ blockMarkerStart :: (entryLines ["a.com".data] ++ [blockMarkerEnd]) ∧
      ∀ l ∈ pre, cleanLine l :=
  ⟨by decide, by decide,
    applyRegion_twice_single_region ["b.com".data] ["a.com".data] "x\n".data
      (by decide) (by decide)⟩

/-- C4 (counterexample): `removeRegion` on marker-free content is not
always a byte-level no-op: content that does not end in a newline is
rewritten with a trailing newline appended (`"a"` becomes `"a\n"`);
likewise content using a line boundary other than `'\n'` is rewritten
(`"a\x0Bb\n"` becomes `"a\nb\n"`). -/
theorem removeRegion_not_always_noop :
    removeHostsEntries "a".data ≠ "a".data ∧
      removeHostsEntries "a\x0Bb\n".data ≠ "a\x0Bb\n".data := by decide

/-- C4 (amended): on normalized content — newline-terminated, with the
newline character as its only line-boundary character — containing no
marker lines, `removeRegion` leaves the file content byte-identical
(and, in this total model, cannot fail). -/
theorem removeRegion_noop (c : List Char)
    (hclean : ∀ l ∈ pySplitlines c, cleanLine l)
    (hnorm : normalizedContent c) :
    removeHostsEntries c = c := by
  unfold removeHostsEntries
  rw [stripBlockLines_clean_id _ hclean]
  exact hnorm

/-- C4 (witness). -/
theorem removeRegion_noop_witness :
    (∀ l ∈ pySplitlines "127.0.0.1 localhost\n".data, cleanLine l) ∧
      normalizedContent "127.0.0.1 localhost\n".data ∧
      removeHostsEntries "127.0.0.1 localhost\n".data = "127.0.0.1 localhost\n".data :=
  ⟨by decide, by decide,
    removeRegion_noop "127.0.0.1 localhost\n".data (by decide) (by decide)⟩

/-! ### Domain expansion (`RockSolidBlocker._expand_domains`)

`_expand_domains` iterates over a Python set, normalises each element
with `domain.strip().lower()`, skips empty results, and inserts both
the domain and its `www.`-prefixed sibling (unless already prefixed)
into a fresh set.  Sets of strings are modelled as `Finset (List Char)`;
`strip`/`lower` are modelled on the ASCII fragment (the only characters
relevant to host names). -/

/-- ASCII fragment of Python `str.lower` on one character. -/
def lowerChar (c : Char) : Char :=
  if h : 65 ≤ c.toNat ∧ c.toNat ≤ 90 then
    Char.ofNatAux (c.toNat + 32) (Or.inl (by omega))
  else c

/-- The six characters Python `str.strip` removes from ASCII text. -/
def isSpaceChar (c : Char) : Bool :=
  decide (c.toNat = 32 ∨ c.toNat = 9 ∨ c.toNat = 10 ∨
    c.toNat = 13 ∨ c.toNat = 11 ∨ c.toNat = 12)

/-- Python `s.strip()`. -/
def pyStrip (l : List Char) : List Char :=
  ((l.dropWhile isSpaceChar).reverse.dropWhile isSpaceChar).reverse

/-- Python `s.lower()`. -/
def pyLower (l : List Char) : List Char := l.map lowerChar

/-- `domain.strip().lower()`, the normalisation in `_expand_domains`. -/
def pyNormalize (d : List Char) : List Char := pyLower (pyStrip d)

def wwwDot : List Char := "www.".data

/-- The contribution of one raw domain to the expanded set. -/
def expandOne (d : List Char) : Finset (List Char) :=
  if pyNormalize d = [] then ∅
  else if wwwDot.isPrefixOf (pyNormalize d) then {pyNormalize d}
  else {pyNormalize d, wwwDot ++ pyNormalize d}

/-- `RockSolidBlocker._expand_domains`. -/
def expandDomains (D : Finset (List Char)) : Finset (List Char) :=
  D.biUnion expandOne

/-! #### Normalisation is idempotent -/

theorem toNat_lowerChar (c : Char) :
    (lowerChar c).toNat =
      if 65 ≤ c.toNat ∧ c.toNat ≤ 90 then c.toNat + 32 else c.toNat := by
  unfold lowerChar
  split
  · rfl
  · rfl

theorem lowerChar_lowerChar (c : Char) : lowerChar (lowerChar c) = lowerChar c := by
  by_cases h : 65 ≤ c.toNat ∧ c.toNat ≤ 90
  · have h2 : (lowerChar c).toNat = c.toNat + 32 := by
      rw [toNat_lowerChar, if_pos h]
    conv_lhs => rw [lowerChar]
    rw [dif_neg]
    rw [h2]
    omega
  · rw [show lowerChar c = c from dif_neg h, show lowerChar c = c from dif_neg h]

theorem isSpaceChar_lowerChar (c : Char) :
    isSpaceChar (lowerChar c) = isSpaceChar c := by
  have h2 := toNat_lowerChar c
  by_cases h : 65 ≤ c.toNat ∧ c.toNat ≤ 90
  · rw [if_pos h] at h2
    simp only [isSpaceChar, h2, decide_eq_decide]
    omega
  · rw [if_neg h] at h2
    simp only [isSpaceChar, h2]

theorem head?_dropWhile_false (p : Char → Bool) (l : List Char) :
    ∀ x, (l.dropWhile p).head? = some x → p x = false := by
  induction l with
  | nil => intro x hx; simp [List.dropWhile] at hx
  | cons a tl ih =>
    intro x hx
    rw [List.dropWhile_cons] at hx
    by_cases h : p a
    · rw [if_pos h] at hx
      exact ih x hx
    · rw [if_neg h] at hx
      simp at hx
      rw [← hx]
      exact Bool.eq_false_iff.mpr h

theorem dropWhile_eq_self_of_head (p : Char → Bool) (l : List Char)
    (h : ∀ x, l.head? = some x → p x = false) : l.dropWhile p = l := by
  cases l with
  | nil => rfl
  | cons a tl =>
    rw [List.dropWhile_cons, if_neg]
    simp [h a rfl]

theorem getLast?_dropWhile (p : Char → Bool) (l : List Char)
    (h : l.dropWhile p ≠ []) : (l.dropWhile p).getLast? = l.getLast? := by
  induction l with
  | nil => simp [List.dropWhile] at h
  | cons a tl ih =>
    rw [List.dropWhile_cons]
    by_cases hp : p a
    · rw [List.dropWhile_cons, if_pos hp] at h
      rw [if_pos hp, ih h]
      have htl : tl ≠ [] := by
        intro h0
        rw [h0] at h
        simp [List.dropWhile] at h
      cases hgl : tl.getLast? with
      | none => exact absurd (List.getLast?_eq_none_iff.mp hgl) htl
      | some y =>
        rw [show (a :: tl) = [a] ++ tl from rfl, List.getLast?_append, hgl]
        rfl
    · rw [if_neg hp]

/-- Both ends of a character list avoid `p`. -/
def endsFree (p : Char → Bool) (l : List Char) : Prop :=
  (∀ x, l.head? = some x → p x = false) ∧
    (∀ x, l.getLast? = some x → p x = false)

theorem endsFree_pyStrip (l : List Char) : endsFree isSpaceChar (pyStrip l) := by
  unfold pyStrip
  constructor
  · intro x hx
    rw [List.head?_reverse] at hx
    by_cases hB : (l.dropWhile isSpaceChar).reverse.dropWhile isSpaceChar = []
    · rw [hB] at hx
      simp at hx
    · rw [getLast?_dropWhile _ _ hB, List.getLast?_reverse] at hx
      exact head?_dropWhile_false _ _ x hx
  · intro x hx
    rw [List.getLast?_reverse] at hx
    exact head?_dropWhile_false _ _ x hx

theorem pyStrip_eq_self (l : List Char) (h : endsFree isSpaceChar l) :
    pyStrip l = l := by
  unfold pyStrip
  rw [dropWhile_eq_self_of_head _ _ h.1]
  rw [dropWhile_eq_self_of_head _ _ ?_]
  · exact List.reverse_reverse l
  · intro x hx
    rw [List.head?_reverse] at hx
    exact h.2 x hx

theorem endsFree_pyLower (l : List Char) (h : endsFree isSpaceChar l) :
    endsFree isSpaceChar (pyLower l) := by
  constructor
  · intro x hx
    rw [pyLower, List.head?_map] at hx
    cases hh : l.head? with
    | none => rw [hh] at hx; simp at hx
    | some y =>
      rw [hh] at hx
      simp at hx
      rw [← hx, isSpaceChar_lowerChar]
      exact h.1 y hh
  · intro x hx
    rw [pyLower, List.getLast?_map] at hx
    cases hh : l.getLast? with
    | none => rw [hh] at hx; simp at hx
    | some y =>
      rw [hh] at hx
      simp at hx
      rw [← hx, isSpaceChar_lowerChar]
      exact h.2 y hh

theorem pyLower_pyLower (l : List Char) : pyLower (pyLower l) = pyLower l := by
  unfold pyLower
  rw [List.map_map]
  exact List.map_congr_left fun a _ => lowerChar_lowerChar a

theorem pyNormalize_pyNormalize (d : List Char) :
    pyNormalize (pyNormalize d) = pyNormalize d := by
  unfold pyNormalize
  rw [show pyStrip (pyLower (pyStrip d)) = pyLower (pyStrip d) from
    pyStrip_eq_self _ (endsFree_pyLower _ (endsFree_pyStrip d))]
  exact pyLower_pyLower _

theorem pyNormalize_www (d : List Char) (h : pyNormalize d ≠ []) :
    pyNormalize (wwwDot ++ pyNormalize d) = wwwDot ++ pyNormalize d := by
  have hsf : endsFree isSpaceChar (pyNormalize d) :=
    endsFree_pyLower _ (endsFree_pyStrip d)
  have hends : endsFree isSpaceChar (wwwDot ++ pyNormalize d) := by
    constructor
    · intro x hx
      rw [show wwwDot ++ pyNormalize d = 'w' :: ("ww.".data ++ pyNormalize d)
        from rfl] at hx
      simp at hx
      rw [← hx]
      decide
    · intro x hx
      rw [List.getLast?_append] at hx
      cases hgl : (pyNormalize d).getLast? with
      | none => exact absurd (List.getLast?_eq_none_iff.mp hgl) h
      | some y =>
        rw [hgl] at hx
        simp at hx
        rw [← hx]
        exact hsf.2 y hgl
  show pyLower (pyStrip (wwwDot ++ pyNormalize d)) = wwwDot ++ pyNormalize d
  rw [pyStrip_eq_self _ hends]
  show (wwwDot ++ pyNormalize d).map lowerChar = wwwDot ++ pyNormalize d
  rw [List.map_append]
  have h1 : wwwDot.map lowerChar = wwwDot := by decide
  have h2 : (pyNormalize d).map lowerChar = pyNormalize d := pyLower_pyLower (pyStrip d)
  rw [h1, h2]

theorem isPrefixOf_wwwDot_append (t : List Char) :
    wwwDot.isPrefixOf (wwwDot ++ t) = true := by
  show List.isPrefixOf ('w' :: 'w' :: 'w' :: '.' :: []) (wwwDot ++ t) = true
  simp [wwwDot, List.isPrefixOf]

/-! #### The expansion -/

theorem mem_expandOne {x d : List Char} :
    x ∈ expandOne d ↔ pyNormalize d ≠ [] ∧
      (x = pyNormalize d ∨
        (wwwDot.isPrefixOf (pyNormalize d) = false ∧ x = wwwDot ++ pyNormalize d)) := by
  unfold expandOne
  by_cases h0 : pyNormalize d = []
  · simp [h0]
  · rw [if_neg h0]
    by_cases hp : wwwDot.isPrefixOf (pyNormalize d)
    · simp [hp, h0]
    · simp only [Bool.not_eq_true] at hp
      simp [hp, h0, Finset.mem_insert]

theorem expandOne_fixed {x d : List Char} (hx : x ∈ expandOne d) :
    pyNormalize x = x ∧ x ≠ [] := by
  obtain ⟨h0, hcase⟩ := mem_expandOne.mp hx
  rcases hcase with h | ⟨hp, h⟩
  · subst h
    exact ⟨pyNormalize_pyNormalize d, h0⟩
  · subst h
    refine ⟨pyNormalize_www d h0, ?_⟩
    simp [wwwDot]

theorem expandOne_self_mem {x : List Char} (hfix : pyNormalize x = x)
    (hne : x ≠ []) : x ∈ expandOne x := by
  rw [mem_expandOne, hfix]
  exact ⟨hne, Or.inl rfl⟩

theorem expandOne_sub {y d : List Char} (hy : y ∈ expandOne d) :
    expandOne y ⊆ expandOne d := by
  obtain ⟨h0, hcase⟩ := mem_expandOne.mp hy
  rcases hcase with h | ⟨hp, h⟩
  · subst h
    intro x hx
    rw [mem_expandOne] at hx ⊢
    rw [pyNormalize_pyNormalize d] at hx
    exact hx
  · subst h
    intro x hx
    rw [mem_expandOne, pyNormalize_www d h0] at hx
    rw [isPrefixOf_wwwDot_append] at hx
    rcases hx.2 with h | ⟨hfalse, _⟩
    · subst h
      rw [mem_expandOne]
      exact ⟨h0, Or.inr ⟨hp, rfl⟩⟩
    · exact absurd hfalse (by simp)

/-! ### Claim theorems about domain expansion (C9) -/

/-- C9 (counterexample): not every member of the input appears in the
output: members are stripped and lowercased first, so `"A"` is not in
`expand({"A"})` (which is `{"a", "www.a"}`). -/
theorem expand_not_superset :
    "A".data ∉ expandDomains {"A".data} := by decide

/-- C9 (amended): `expand` is idempotent, and the *normalised*
(stripped, lowercased) form of every member with non-blank
normalisation appears in the output.  The output is a finite set, so
freedom from duplicates and independence from input enumeration order
hold by construction. -/
theorem expandDomains_idem_and_mem (D : Finset (List Char)) :
    expandDomains (expandDomains D) = expandDomains D ∧
      ∀ d ∈ D, pyNormalize d ≠ [] → pyNormalize d ∈ expandDomains D := by
  constructor
  · ext x
    simp only [expandDomains, Finset.mem_biUnion]
    constructor
    · rintro ⟨y, ⟨d, hd, hy⟩, hx⟩
      exact ⟨d, hd, expandOne_sub hy hx⟩
    · rintro ⟨d, hd, hx⟩
      obtain ⟨hfix, hne⟩ := expandOne_fixed hx
      exact ⟨x, ⟨d, hd, hx⟩, expandOne_self_mem hfix hne⟩
  · intro d hd hne
    rw [expandDomains, Finset.mem_biUnion]
    exact ⟨d, hd, mem_expandOne.mpr ⟨hne, Or.inl rfl⟩⟩

/-- C9 (witness). -/
theorem expandDomains_idem_and_mem_witness :
    pyNormalize "A".data ≠ [] ∧ pyNormalize "A".data ∈ expandDomains {"A".data} :=
  ⟨by decide,
    (expandDomains_idem_and_mem {"A".data}).2 "A".data (by decide) (by decide)⟩

/-! ### The block-page responder (`BlockHandler`, block_server.py)

`BlockHandler` defines `do_GET` (a fixed 200 response carrying the
cached page), `do_POST` (delegating to `do_GET`) and `do_HEAD`
(a bare 200 with only a Content-Type header and no body).  The model
covers exactly these three handler methods; requests with any other
method never reach code of this repository (the library base class
rejects them).  The request path is ignored by the handler, which the
model reflects by taking and discarding it. -/

inductive HttpMethod where
  | get
  | post
  | head
  deriving DecidableEq

structure HttpResponse where
  status : Nat
  headers : List (String × String)
  body : String
  deriving DecidableEq

/-- `BlockHandler.do_GET`: the headers sent, in order, and the page body. -/
def doGet (page : String) : HttpResponse :=
  { status := 200
    headers := [("Content-Type", "text/html; charset=utf-8"),
                ("Cache-Control", "no-store, no-cache, must-revalidate"),
                ("Connection", "close")]
    body := page }

/-- `BlockHandler.do_HEAD`: status 200, a bare Content-Type header, no body. -/
def doHead : HttpResponse :=
  { status := 200
    headers := [("Content-Type", "text/html")]
    body := "" }

/-- Dispatch of one request to the `BlockHandler` methods
(`page` is the module-level `HTML_CONTENT`; the path is unused). -/
def handleRequest (page : String) (m : HttpMethod) (path : String) : HttpResponse :=
  match m with
  | .get => doGet page
  | .post => doGet page
  | .head => doHead

/-! ### Claim theorems about the responder (C8) -/

/-- C8 (counterexample): a `HEAD` request does *not* receive the same
headers as a `GET`: `do_HEAD` sends only a bare `Content-Type`
header — no `Cache-Control`, no `Connection: close`, and even the
Content-Type value differs from `do_GET`'s. -/
theorem head_missing_headers :
    ("Connection", "close") ∉ (handleRequest "page" HttpMethod.head "/").headers ∧
      ("Cache-Control", "no-store, no-cache, must-revalidate") ∉
        (handleRequest "page" HttpMethod.head "/").headers := by
  decide

/-- C8 (amended): every `GET` or `POST` request, regardless of path,
gets status 200, the configured static page as body, a
`Cache-Control: no-store, no-cache, must-revalidate` header and a
`Connection: close` header; a `HEAD` request gets status 200 with an
empty body and only a `Content-Type: text/html` header. -/
theorem handleRequest_fixed_response (page path : String) :
    (handleRequest page HttpMethod.get path).status = 200 ∧
      (handleRequest page HttpMethod.get path).body = page ∧
      ("Cache-Control", "no-store, no-cache, must-revalidate") ∈
        (handleRequest page HttpMethod.get path).headers ∧
      ("Connection", "close") ∈ (handleRequest page HttpMethod.get path).headers ∧
      handleRequest page HttpMethod.post path = handleRequest page HttpMethod.get path ∧
      (handleRequest page HttpMethod.head path).status = 200 ∧
      (handleRequest page HttpMethod.head path).body = "" ∧
      (handleRequest page HttpMethod.head path).headers =
        [("Content-Type", "text/html")] := by
  refine ⟨rfl, rfl, ?_, ?_, rfl, rfl, rfl, rfl⟩
  · simp [handleRequest, doGet]
  · simp [handleRequest, doGet]

/-! ### The block/unblock lifecycle (`RockSolidBlocker.block` / `unblock`)

`block()` and `unblock()` are sequences of side effects.  They are
modelled as functions from an abstract system state (hosts-file
content, the immutable flag, the unlock-time side-car file) to a
result triple: the exception raised (if any), the state reached at
that point, and the ordered trace of side-effecting steps performed.
Environment outcomes that the code branches on are passed as booleans:
`primaryOk` (does `systemd-run` succeed), `fallbackOk` (does `at`
succeed — the code ignores the outcome beyond logging, so it is
unused), `chattrOk` (does `chattr +i` succeed). -/

inductive SysEvent where
  | removeImmutableFlag
  | writeHostsRegion
  | flushDnsCache
  | saveUnlockFile
  | runSystemdSchedule
  | runAtSchedule
  | setImmutableFlag
  | stopResponderService
  | startResponderService
  | removeHostsRegion
  | removeIptablesRules
  | clearUnlockFile
  deriving DecidableEq

inductive BlockError where
  | privilegeError
  | externalToolError
  deriving DecidableEq

structure SysState where
  hostsContent : List Char
  hostsImmutable : Bool
  unlockFile : Option Nat
  deriving DecidableEq

/-- The steps of `RockSolidBlocker._schedule_unlock`: write the
side-car file, try `systemd-run`; only on its failure, try `at`.
Every failure is caught and logged inside the method, so it performs
its steps unconditionally and never raises. -/
def scheduleUnlockEvents (primaryOk : Bool) : List SysEvent :=
  [.saveUnlockFile, .runSystemdSchedule] ++
    (if primaryOk then [] else [.runAtSchedule])

/-- `_expand_domains` at the level of an enumeration of the input set.
`_add_hosts_entries` deduplicates and sorts whatever enumeration it is
handed, so this carries the same information as `expandDomains` of the
corresponding `Finset`. -/
def expandDomainsList (l : List (List Char)) : List (List Char) :=
  l.flatMap fun d =>
    if pyNormalize d = [] then []
    else if wwwDot.isPrefixOf (pyNormalize d) then [pyNormalize d]
    else [pyNormalize d, wwwDot ++ pyNormalize d]

/-- `RockSolidBlocker.block`: privilege check, hosts rewrite (which
first clears the immutable flag), DNS flush, unlock scheduling, then
`chattr +i` (which raises on failure), then the block-page service
(which stops any previous instance before starting).  `domains`
enumerates the raw domain set, `durationMinutes`/`now` are the duration
and clock reading in minutes. -/
def blockRun (euid : Nat) (domains : List (List Char))
    (durationMinutes now : Nat)
    (primaryOk fallbackOk chattrOk servePage : Bool) (st : SysState) :
    Option BlockError × SysState × List SysEvent :=
  if euid ≠ 0 then (some .privilegeError, st, [])
  else
    let st1 : SysState :=
      { st with
          hostsImmutable := false
          hostsContent := addHostsEntries (expandDomainsList domains) st.hostsContent }
    let st2 : SysState := { st1 with unlockFile := some (now + durationMinutes) }
    let evs : List SysEvent :=
      [.removeImmutableFlag, .writeHostsRegion, .flushDnsCache] ++
        scheduleUnlockEvents primaryOk
    if chattrOk then
      (none, { st2 with hostsImmutable := true },
        evs ++ [.setImmutableFlag] ++
          (if servePage then [.stopResponderService, .startResponderService] else []))
    else (some .externalToolError, st2, evs)

/-- `RockSolidBlocker.unblock`: privilege check, then best-effort
removal of every layer (hosts region with flag clear, iptables rules,
DNS flush, block-page service stop, side-car removal). -/
def unblockRun (euid : Nat) (st : SysState) :
    Option BlockError × SysState × List SysEvent :=
  if euid ≠ 0 then (some .privilegeError, st, [])
  else
    (none,
      { hostsContent := removeHostsEntries st.hostsContent,
        hostsImmutable := false, unlockFile := none },
      [.removeImmutableFlag, .removeHostsRegion, .removeIptablesRules,
        .flushDnsCache, .stopResponderService, .clearUnlockFile])

/-! ### Subprocess invocations of the scheduler (`_schedule_unlock`)
and of the responder supervisor (`BlockPageServer.start`), modelled as
the literal argv sequences the code passes to the OS. -/

structure OsCommand where
  program : String
  args : List String
  deriving DecidableEq

/-- `_schedule_unlock`'s subprocess calls: `systemd-run --on-calendar
<stamp> --unit deepwork-unblock /bin/bash -c "python3 <script>
--unlock"`, and — only if that raises — `at <HH:MM>` fed the same
unlock command on stdin.  The timestamp strings are parameters (clock
formatting is outside the model). -/
def scheduleUnlockCmds (scriptPath stamp timeStr : String) (primaryOk : Bool) :
    List OsCommand :=
  [⟨"systemd-run", ["--on-calendar", stamp, "--unit", "deepwork-unblock",
      "/bin/bash", "-c", "python3 " ++ scriptPath ++ " --unlock"]⟩] ++
    (if primaryOk then [] else [⟨"at", [timeStr]⟩])

/-- `BlockPageServer.start`: stops any prior instance before
registering the new one. -/
def blockPageStartCmds (serverScript : String) : List OsCommand :=
  [⟨"systemctl", ["stop", "deepwork-blockpage"]⟩,
   ⟨"systemd-run", ["--unit", "deepwork-blockpage",
      "--description", "DeepWork Block Page Server", "python3", serverScript]⟩]

/-! ### Claim theorems about the scheduler registration (C5) -/

/-- C5 (counterexample): a schedule call issues *no* cancellation of a
prior registration: its command sequence is exactly the `systemd-run`
registration (plus the `at` registration on fallback) — no `systemctl`
stop/reset of the `deepwork-unblock` unit, in contrast to the
responder supervisor, which does stop before starting.  So a live
ticket under the fixed unit name is never cancelled or replaced by
re-scheduling. -/
theorem schedule_never_cancels :
    ((scheduleUnlockCmds "/opt/deepwork/blocker.py" "2026-10-12 13:00:00" "13:00"
        true).map OsCommand.program = ["systemd-run"]) ∧
      ((scheduleUnlockCmds "/opt/deepwork/blocker.py" "2026-10-12 13:00:00" "13:00"
        false).map OsCommand.program = ["systemd-run", "at"]) ∧
      ((blockPageStartCmds "/opt/deepwork/block_server.py").map OsCommand.program =
        ["systemctl", "systemd-run"]) := by
  exact ⟨rfl, rfl, rfl⟩

/-- C5 (amended): every command a schedule call invokes is a
registration command (`systemd-run` or, on fallback, `at`); the
operation never invokes a cancellation, so an existing registration
under the fixed unit name is left in place. -/
theorem scheduleUnlockCmds_registration_only
    (scriptPath stamp timeStr : String) (primaryOk : Bool) :
    ∀ c ∈ scheduleUnlockCmds scriptPath stamp timeStr primaryOk,
      c.program = "systemd-run" ∨ c.program = "at" := by
  intro c hc
  unfold scheduleUnlockCmds at hc
  cases primaryOk with
  | true =>
    simp at hc
    rw [hc]
    exact Or.inl rfl
  | false =>
    simp at hc
    rcases hc with h | h
    · rw [h]; exact Or.inl rfl
    · rw [h]; exact Or.inr rfl

/-- C5 (witness). -/
theorem scheduleUnlockCmds_registration_only_witness :
    (⟨"at", ["13:00"]⟩ : OsCommand) ∈
        scheduleUnlockCmds "/opt/deepwork/blocker.py" "2026-10-12 13:00:00" "13:00"
          false ∧
      ((⟨"at", ["13:00"]⟩ : OsCommand).program = "systemd-run" ∨
        (⟨"at", ["13:00"]⟩ : OsCommand).program = "at") :=
  ⟨by decide,
    scheduleUnlockCmds_registration_only "/opt/deepwork/blocker.py"
      "2026-10-12 13:00:00" "13:00" false ⟨"at", ["13:00"]⟩ (by decide)⟩

/-! ### Claim theorems about the lifecycle (C2, C6, C7, C10) -/

/-- C6: without effective root (`euid ≠ 0`), both `block()` and
`unblock()` fail with the privilege error (Python `PermissionError`,
the spec's `PrivilegeError`), leaving the state untouched and having
performed no side-effecting step. -/
theorem privilege_required (euid : Nat) (d : List (List Char)) (dur now : Nat)
    (pOk fOk cOk srv : Bool) (st st2 : SysState) (h : euid ≠ 0) :
    blockRun euid d dur now pOk fOk cOk srv st = (some .privilegeError, st, []) ∧
      unblockRun euid st2 = (some .privilegeError, st2, []) := by
  constructor
  · unfold blockRun
    rw [if_pos h]
  · unfold unblockRun
    rw [if_pos h]

/-- C6 (witness). -/
theorem privilege_required_witness :
    (1000 : Nat) ≠ 0 ∧
      (blockRun 1000 [] 25 0 true true true true ⟨[], false, none⟩ =
        (some .privilegeError, ⟨[], false, none⟩, []) ∧
      unblockRun 1000 ⟨[], false, none⟩ =
        (some .privilegeError, ⟨[], false, none⟩, [])) :=
  ⟨by decide,
    privilege_required 1000 [] 25 0 true true true true ⟨[], false, none⟩
      ⟨[], false, none⟩ (by decide)⟩

/-- C2: in every successful run of `block()`, the trace places the
immutable-flag step strictly after the hosts-region write and after
the scheduling steps (side-car write and `systemd-run` registration),
and the final state has the freshly written region locked. -/
theorem immutable_flag_set_last (euid : Nat) (d : List (List Char)) (dur now : Nat)
    (pOk fOk cOk srv : Bool) (st st' : SysState) (evs : List SysEvent)
    (h : blockRun euid d dur now pOk fOk cOk srv st = (none, st', evs)) :
    ∃ pre post, evs = pre ++ SysEvent.setImmutableFlag :: post ∧
      SysEvent.writeHostsRegion ∈ pre ∧ SysEvent.saveUnlockFile ∈ pre ∧
      SysEvent.runSystemdSchedule ∈ pre ∧ SysEvent.setImmutableFlag ∉ pre ∧
      st'.hostsImmutable = true ∧
      st'.hostsContent = addHostsEntries (expandDomainsList d) st.hostsContent := by
  unfold blockRun at h
  split at h
  · simp at h
  · split at h
    · simp only [Prod.mk.injEq] at h
      obtain ⟨-, hst, hevs⟩ := h
      subst hst
      subst hevs
      cases pOk with
      | true =>
        cases srv with
        | true =>
          exact ⟨[.removeImmutableFlag, .writeHostsRegion, .flushDnsCache,
            .saveUnlockFile, .runSystemdSchedule],
            [.stopResponderService, .startResponderService],
            rfl, by decide, by decide, by decide, by decide, rfl, rfl⟩
        | false =>
          exact ⟨[.removeImmutableFlag, .writeHostsRegion, .flushDnsCache,
            .saveUnlockFile, .runSystemdSchedule], [],
            rfl, by decide, by decide, by decide, by decide, rfl, rfl⟩
      | false =>
        cases srv with
        | true =>
          exact ⟨[.removeImmutableFlag, .writeHostsRegion, .flushDnsCache,
            .saveUnlockFile, .runSystemdSchedule, .runAtSchedule],
            [.stopResponderService, .startResponderService],
            rfl, by decide, by decide, by decide, by decide, rfl, rfl⟩
        | false =>
          exact ⟨[.removeImmutableFlag, .writeHostsRegion, .flushDnsCache,
            .saveUnlockFile, .runSystemdSchedule, .runAtSchedule], [],
            rfl, by decide, by decide, by decide, by decide, rfl, rfl⟩
    · simp at h

/-- C2 (witness). -/
theorem immutable_flag_set_last_witness :
    ∃ pre post,
      ([.removeImmutableFlag, .writeHostsRegion, .flushDnsCache, .saveUnlockFile,
        .runSystemdSchedule, .setImmutableFlag, .stopResponderService,
        .startResponderService] : List SysEvent) =
          pre ++ SysEvent.setImmutableFlag :: post ∧
      SysEvent.writeHostsRegion ∈ pre ∧ SysEvent.saveUnlockFile ∈ pre ∧
      SysEvent.runSystemdSchedule ∈ pre ∧ SysEvent.setImmutableFlag ∉ pre ∧
      (⟨addHostsEntries (expandDomainsList []) [], true, some 25⟩ :
        SysState).hostsImmutable = true ∧
      (⟨addHostsEntries (expandDomainsList []) [], true, some 25⟩ :
        SysState).hostsContent = addHostsEntries (expandDomainsList []) [] :=
  immutable_flag_set_last 0 [] 25 0 true true true true ⟨[], false, none⟩
    ⟨addHostsEntries (expandDomainsList []) [], true, some 25⟩ _ rfl

/-- C7: when the primary scheduler fails and the fallback fails too,
`block()` still completes without an exception — both registration
attempts appear in the trace, the immutable flag still gets set, and
only the automatic-release guarantee is lost. -/
theorem block_completes_despite_schedule_failure
    (d : List (List Char)) (dur now : Nat) (srv : Bool) (st : SysState) :
    (blockRun 0 d dur now false false true srv st).1 = none ∧
      (blockRun 0 d dur now false false true srv st).2.1.hostsImmutable = true ∧
      SysEvent.runSystemdSchedule ∈ (blockRun 0 d dur now false false true srv st).2.2 ∧
      SysEvent.runAtSchedule ∈ (blockRun 0 d dur now false false true srv st).2.2 ∧
      SysEvent.setImmutableFlag ∈ (blockRun 0 d dur now false false true srv st).2.2 := by
  cases srv with
  | true =>
    have hevs : (blockRun 0 d dur now false false true true st).2.2 =
        [.removeImmutableFlag, .writeHostsRegion, .flushDnsCache, .saveUnlockFile,
          .runSystemdSchedule, .runAtSchedule, .setImmutableFlag,
          .stopResponderService, .startResponderService] := rfl
    exact ⟨rfl, rfl, hevs ▸ (by decide), hevs ▸ (by decide), hevs ▸ (by decide)⟩
  | false =>
    have hevs : (blockRun 0 d dur now false false true false st).2.2 =
        [.removeImmutableFlag, .writeHostsRegion, .flushDnsCache, .saveUnlockFile,
          .runSystemdSchedule, .runAtSchedule, .setImmutableFlag] := rfl
    exact ⟨rfl, rfl, hevs ▸ (by decide), hevs ▸ (by decide), hevs ▸ (by decide)⟩

/-- C10: the scheduling step writes the unlock-time side-car before
invoking either OS scheduling mechanism, so after a `block()` in which
both mechanisms fail, the side-car still records `now + duration`
while both registration attempts came later in the trace. -/
theorem sidecar_written_before_scheduling
    (d : List (List Char)) (dur now : Nat) (srv : Bool) (st : SysState) :
    (blockRun 0 d dur now false false true srv st).1 = none ∧
      (blockRun 0 d dur now false false true srv st).2.1.unlockFile =
        some (now + dur) ∧
      ∃ pre post, (blockRun 0 d dur now false false true srv st).2.2 =
          pre ++ SysEvent.saveUnlockFile :: post ∧
        SysEvent.runSystemdSchedule ∉ pre ∧ SysEvent.runAtSchedule ∉ pre ∧
        SysEvent.runSystemdSchedule ∈ post ∧ SysEvent.runAtSchedule ∈ post := by
  cases srv with
  | true =>
    exact ⟨rfl, rfl,
      [.removeImmutableFlag, .writeHostsRegion, .flushDnsCache],
      [.runSystemdSchedule, .runAtSchedule, .setImmutableFlag,
        .stopResponderService, .startResponderService],
      rfl, by decide, by decide, by decide, by decide⟩
  | false =>
    exact ⟨rfl, rfl,
      [.removeImmutableFlag, .writeHostsRegion, .flushDnsCache],
      [.runSystemdSchedule, .runAtSchedule, .setImmutableFlag],
      rfl, by decide, by decide, by decide, by decide⟩

end DeepWork
